import Mathlib

/-!
# check_aws_config_aggregator

A shallow embedding of `cmd/check_aws_config_aggregator/main.go`, from the
pagination loop (line 46) to the final `p.Exit` (line 97), and the properties of
the fetcher and the reporter proved over it.

* Go strings are Lean strings.  Go compares strings byte by byte; on UTF-8 text
  that is the order of the code points, which is the lexicographic order of
  `String.data` used here (and the order of `String` in Mathlib).
* Go pointers (`*string`, `*config.Compliance`) are `Option`s; dereferencing
  `nil` is the runtime panic `FetchResult.panicked`.
* `map[string][]string` is an association list with one entry per key.
* The service is a script: the list of the responses it gives to the first,
  second, ... request.  A request beyond the script is `FetchResult.pending`.
-/

namespace CheckAwsConfigAggregator

/-! ## Data model -/

/-- Type `config.Compliance` of the AWS SDK, restricted to the field `main` reads. -/
structure Compliance where
  ComplianceType : Option String
deriving DecidableEq

/-- Type `config.AggregateComplianceByConfigRule` of the AWS SDK, restricted to the
fields `main` reads; every field is a pointer in the SDK. -/
structure AggregateComplianceByConfigRule where
  AwsRegion : Option String
  Compliance : Option Compliance
  ConfigRuleName : Option String
deriving DecidableEq

/-- Type `config.DescribeAggregateComplianceByConfigRulesOutput` of the AWS SDK. -/
structure DescribeAggregateComplianceByConfigRulesOutput where
  AggregateComplianceByConfigRules : List AggregateComplianceByConfigRule
  NextToken : Option String
deriving DecidableEq

/-- What `svc.DescribeAggregateComplianceByConfigRules(in)` returns: `(out, nil)` or
`(nil, err)`, the error being given by its text. -/
inductive Response where
  | ok (out : DescribeAggregateComplianceByConfigRulesOutput)
  | failed (err : String)
deriving DecidableEq

/-- The Go map `nonCompliant : map[string][]string`. -/
abbrev ViolationIndex := List (String × List String)

/-- The keys of the map, in the order `range` happens to visit them. -/
def keys (m : ViolationIndex) : List String := m.map Prod.fst

/-- Reading with presence: `v, ok := m[k]`. -/
def mapLookup : ViolationIndex → String → Option (List String)
  | [], _ => none
  | (k', v) :: rest, k => if k' = k then some v else mapLookup rest k

/-- Reading `m[k]`: the nil slice when the key is missing. -/
def mapIndex (m : ViolationIndex) (k : String) : List String :=
  match mapLookup m k with
  | some v => v
  | none => []

/-- Writing `m[k] = v`. -/
def mapAssign : ViolationIndex → String → List String → ViolationIndex
  | [], k, v => [(k, v)]
  | (k', v') :: rest, k, v =>
    if k' = k then (k, v) :: rest else (k', v') :: mapAssign rest k v

/-! ## The fetcher (lines 46-76) -/

/-- Function `errors.Wrap(err, message)` of `github.com/pkg/errors`, by the text of the
resulting error. -/
def errorsWrap (err : String) (message : String) : String := message ++ ": " ++ err

/-- Body of the inner loop (lines 61-69) for one `result`; `none` is the nil-pointer
panic of a dereference. -/
def processResult (nonCompliant : ViolationIndex) (result : AggregateComplianceByConfigRule) :
    Option ViolationIndex :=
  match result.Compliance with
  | none => some nonCompliant
  | some compliance =>
    match compliance.ComplianceType with
    | none => none
    | some complianceType =>
      if complianceType ≠ "NON_COMPLIANT" then some nonCompliant
      else
        match result.ConfigRuleName with
        | none => none
        | some rule =>
          let nonCompliant1 :=
            if (mapLookup nonCompliant rule).isSome then nonCompliant
            else mapAssign nonCompliant rule []
          match result.AwsRegion with
          | none => none
          | some region =>
            some (mapAssign nonCompliant1 rule (mapIndex nonCompliant1 rule ++ [region]))

/-- Inner loop (lines 60-70) over the entries of one response. -/
def processResults : ViolationIndex → List AggregateComplianceByConfigRule → Option ViolationIndex
  | nonCompliant, [] => some nonCompliant
  | nonCompliant, result :: rest =>
    match processResult nonCompliant result with
    | none => none
    | some nonCompliant1 => processResults nonCompliant1 rest

/-- How the fetch loop ends. -/
inductive FetchResult where
  | completed (nonCompliant : ViolationIndex)
  | fatal (err : String)
  | panicked
  | pending
deriving DecidableEq

/-- A run of the fetch loop: the `NextToken` of every request issued, in order, and how
the loop ended. -/
structure FetchRun where
  requests : List (Option String)
  result : FetchResult
deriving DecidableEq

/-- The loop `for { ... }` of lines 50-76, entered with the token `next` and the map
`nonCompliant`, against the responses still to come. -/
def fetchLoop : List Response → Option String → ViolationIndex → FetchRun
  | [], next, _ => ⟨[next], .pending⟩
  | .failed err :: _, next, _ =>
    ⟨[next], .fatal (errorsWrap err "retrieving aggregate compliance")⟩
  | .ok out :: rest, next, nonCompliant =>
    match processResults nonCompliant out.AggregateComplianceByConfigRules with
    | none => ⟨[next], .panicked⟩
    | some nonCompliant1 =>
      match out.NextToken with
      | none => ⟨[next], .completed nonCompliant1⟩
      | some token =>
        let run := fetchLoop rest (some token) nonCompliant1
        ⟨next :: run.requests, run.result⟩

/-- Lines 46-76: `next` starts nil and `nonCompliant` empty. -/
def fetch (script : List Response) : FetchRun := fetchLoop script none []

/-! ## The reporter (lines 78-97) -/

/-- Modelled from the spec: the status constants of package `go-nagios`, which is not
under `src/`; section 6 of the spec gives OK the exit code 0. -/
def nagiosOK : Nat := 0

/-- Modelled from the spec: the status constants of package `go-nagios`, which is not
under `src/`; section 6 of the spec gives CRITICAL the exit code 2. -/
def nagiosCRITICAL : Nat := 2

/-- Go's `a < b` on strings. -/
def stringLess (a b : String) : Prop := a.data < b.data

instance stringLessDecidable : DecidableRel stringLess :=
  fun a b => inferInstanceAs (Decidable (a.data < b.data))

/-- Function `sort.Strings`: the slice in increasing order (`Less(i, j)` is
`x[i] < x[j]`).  Equal strings are indistinguishable, so the result does not depend on
the sorting algorithm. -/
def sortStrings (x : List String) : List String :=
  x.insertionSort (fun a b => ¬ stringLess b a)

/-- The format `"%s=[%s]"` of line 91 applied to a rule and its joined regions. -/
def renderRule (rule : String) (regions : List String) : String :=
  rule ++ "=[" ++ ",".intercalate regions ++ "]"

/-- One iteration of the loop of lines 89-92: the slice of `rule` is sorted in place and
its rendering appended to `messages`. -/
def reportStep (state : ViolationIndex × List String) (rule : String) :
    ViolationIndex × List String :=
  let sorted := sortStrings (mapIndex state.1 rule)
  (mapAssign state.1 rule sorted, state.2 ++ [renderRule rule sorted])

/-- What the reporter hands to `p.Exit`, and the map as the in-place sorts leave it. -/
structure Report where
  code : Nat
  message : String
  nonCompliant : ViolationIndex
deriving DecidableEq

/-- The fixed text of line 94. -/
def criticalLead : String :=
  "CRITICAL - Non-compliant resources detected in the following regions: "

/-- Lines 78-96. -/
def report (nonCompliant : ViolationIndex) : Report :=
  if nonCompliant.length > 0 then
    let rules := sortStrings (keys nonCompliant)
    let state := rules.foldl reportStep (nonCompliant, [])
    ⟨nagiosCRITICAL, criticalLead ++ " ".intercalate state.2, state.1⟩
  else
    ⟨nagiosOK, "OK - No resources found out of compliance", nonCompliant⟩

/-- How the process ends. -/
inductive Outcome where
  | exit (code : Nat) (message : String)
  | fatal (err : String)
  | panic
  | pending
deriving DecidableEq

/-- Function `main` from line 46 on: the fetch loop, then `p.Exit(code, message)`, or
`p.Fatal` on a failed request.  Both functions of `go-nagios` end the process; a nil
dereference ends it with a panic. -/
def main (script : List Response) : Outcome :=
  match (fetch script).result with
  | .completed nonCompliant =>
    let r := report nonCompliant
    .exit r.code r.message
  | .fatal err => .fatal err
  | .panicked => .panic
  | .pending => .pending

/-- An entry that passes the test of line 61. -/
def qualifies (result : AggregateComplianceByConfigRule) : Bool :=
  result.Compliance = some ⟨some "NON_COMPLIANT"⟩

/-- An entry whose compliance record is absent, or whose compliance type is a string
other than `NON_COMPLIANT`. -/
def excluded (result : AggregateComplianceByConfigRule) : Bool :=
  match result.Compliance with
  | none => true
  | some compliance =>
    match compliance.ComplianceType with
    | none => false
    | some complianceType => complianceType ≠ "NON_COMPLIANT"

/-- The order `sortStrings` sorts by: `b` is not less than `a`. -/
def stringLE (a b : String) : Prop := ¬ stringLess b a

/-- The entries of the successful responses of a script, in order of arrival. -/
def entriesOf : List Response → List AggregateComplianceByConfigRule
  | [] => []
  | .ok out :: rest => out.AggregateComplianceByConfigRules ++ entriesOf rest
  | .failed _ :: rest => entriesOf rest

/-- The regions of the qualifying entries of `rule`, in order of arrival. -/
def regionsFor (rule : String) (entries : List AggregateComplianceByConfigRule) : List String :=
  entries.filterMap
    (fun e => if qualifies e ∧ e.ConfigRuleName = some rule then e.AwsRegion else none)

/-- An entry the loop body handles without dereferencing a nil pointer: its compliance
record is absent, or its compliance type is present and, when that is `NON_COMPLIANT`, so
are its rule name and region. -/
def derefOK (result : AggregateComplianceByConfigRule) : Bool :=
  excluded result ||
    (qualifies result && result.ConfigRuleName.isSome && result.AwsRegion.isSome)

/-- A response without its excluded entries. -/
def dropExcluded : Response → Response
  | .ok out =>
    .ok ⟨out.AggregateComplianceByConfigRules.filter (fun e => !excluded e), out.NextToken⟩
  | .failed err => .failed err

/-! ## The order of strings and `sort.Strings` -/

theorem stringLE_iff_le (a b : String) : stringLE a b ↔ a ≤ b := by
  unfold stringLE stringLess
  rw [String.le_iff_toList_le]
  exact not_lt

theorem stringLess_iff_lt (a b : String) : stringLess a b ↔ a < b := by
  unfold stringLess
  rw [String.lt_iff_toList_lt]
  rfl

theorem stringLE_eq : (fun a b : String => ¬ stringLess b a) = (fun a b : String => a ≤ b) := by
  funext a b
  exact propext (stringLE_iff_le a b)

theorem stringLE_total : IsTotal String (fun a b => ¬ stringLess b a) :=
  ⟨fun a b => by
    have h := le_total a b
    rw [← stringLE_iff_le, ← stringLE_iff_le] at h
    exact h⟩

theorem stringLE_trans : IsTrans String (fun a b => ¬ stringLess b a) :=
  ⟨fun a b c hab hbc => by
    have h1 := (stringLE_iff_le a b).1 hab
    have h2 := (stringLE_iff_le b c).1 hbc
    exact (stringLE_iff_le a c).2 (le_trans h1 h2)⟩

theorem stringLE_antisymm : IsAntisymm String (fun a b => ¬ stringLess b a) :=
  ⟨fun a b hab hba => by
    have h1 := (stringLE_iff_le a b).1 hab
    have h2 := (stringLE_iff_le b a).1 hba
    exact le_antisymm h1 h2⟩

theorem sortStrings_perm (x : List String) : (sortStrings x).Perm x :=
  List.perm_insertionSort _ x

theorem sortStrings_sorted (x : List String) :
    (sortStrings x).Sorted (fun a b => ¬ stringLess b a) :=
  haveI := stringLE_total
  haveI := stringLE_trans
  List.sorted_insertionSort _ x

theorem sortStrings_sorted_le (x : List String) : (sortStrings x).Sorted (fun a b => a ≤ b) := by
  have h := sortStrings_sorted x
  rw [stringLE_eq] at h
  exact h

/-- The result of `sortStrings` is the only increasing arrangement of the slice. -/
theorem sortStrings_unique (x y : List String) (hp : y.Perm x)
    (hs : y.Sorted (fun a b => a ≤ b)) : sortStrings x = y := by
  have hs1 : y.Sorted (fun a b => ¬ stringLess b a) := by
    rw [stringLE_eq]; exact hs
  haveI := stringLE_antisymm
  exact List.eq_of_perm_of_sorted ((sortStrings_perm x).trans hp.symm) (sortStrings_sorted x) hs1

theorem sortStrings_congr (x y : List String) (hp : x.Perm y) : sortStrings x = sortStrings y :=
  sortStrings_unique x (sortStrings y) ((sortStrings_perm y).trans hp.symm)
    (sortStrings_sorted_le y)

theorem sortStrings_idem (x : List String) : sortStrings (sortStrings x) = sortStrings x :=
  sortStrings_congr _ _ (sortStrings_perm x)

theorem sortStrings_nil : sortStrings [] = [] := rfl

theorem sortStrings_sorted_lt (x : List String) (hx : x.Nodup) :
    (sortStrings x).Sorted (fun a b => a < b) := by
  have hs := sortStrings_sorted_le x
  have hn : (sortStrings x).Nodup := (sortStrings_perm x).nodup_iff.2 hx
  unfold List.Sorted at hs ⊢
  have h2 := hs.and hn
  refine h2.imp ?_
  intro a b h
  exact lt_of_le_of_ne h.1 h.2

/-! ## The map operations -/

theorem mapLookup_mapAssign_self (m : ViolationIndex) (k : String) (v : List String) :
    mapLookup (mapAssign m k v) k = some v := by
  induction m with
  | nil => simp [mapAssign, mapLookup]
  | cons e rest ih =>
    obtain ⟨k', v'⟩ := e
    by_cases h : k' = k
    · simp [mapAssign, mapLookup, h]
    · simp [mapAssign, mapLookup, h, ih]

theorem mapLookup_mapAssign_ne (m : ViolationIndex) (k k' : String) (v : List String)
    (h : k' ≠ k) : mapLookup (mapAssign m k v) k' = mapLookup m k' := by
  induction m with
  | nil => simp [mapAssign, mapLookup, Ne.symm h]
  | cons e rest ih =>
    obtain ⟨k0, v0⟩ := e
    by_cases h0 : k0 = k
    · subst h0
      simp [mapAssign, mapLookup, Ne.symm h]
    · by_cases h1 : k0 = k'
      · subst h1
        simp [mapAssign, mapLookup, h0]
      · simp [mapAssign, mapLookup, h0, h1, ih]

theorem mapIndex_mapAssign_self (m : ViolationIndex) (k : String) (v : List String) :
    mapIndex (mapAssign m k v) k = v := by
  simp [mapIndex, mapLookup_mapAssign_self]

theorem mapIndex_mapAssign_ne (m : ViolationIndex) (k k' : String) (v : List String)
    (h : k' ≠ k) : mapIndex (mapAssign m k v) k' = mapIndex m k' := by
  simp [mapIndex, mapLookup_mapAssign_ne m k k' v h]

theorem mapLookup_isSome_iff (m : ViolationIndex) (k : String) :
    (mapLookup m k).isSome = true ↔ k ∈ keys m := by
  induction m with
  | nil => simp [mapLookup, keys]
  | cons e rest ih =>
    obtain ⟨k0, v0⟩ := e
    by_cases h0 : k0 = k
    · simp [mapLookup, keys, h0]
    · have ih1 : (mapLookup rest k).isSome = true ↔ k ∈ List.map Prod.fst rest := ih
      simp [mapLookup, keys, h0, ih1, Ne.symm h0]

theorem mapLookup_eq_none_iff (m : ViolationIndex) (k : String) :
    mapLookup m k = none ↔ k ∉ keys m := by
  rw [← mapLookup_isSome_iff]
  cases mapLookup m k <;> simp

theorem keys_mapAssign_of_mem (m : ViolationIndex) (k : String) (v : List String)
    (h : k ∈ keys m) : keys (mapAssign m k v) = keys m := by
  induction m with
  | nil => simp [keys] at h
  | cons e rest ih =>
    obtain ⟨k0, v0⟩ := e
    by_cases h0 : k0 = k
    · simp [mapAssign, keys, h0]
    · have hr : k ∈ keys rest := by
        simp only [keys, List.map_cons, List.mem_cons] at h
        rcases h with h | h
        · exact absurd h.symm h0
        · exact h
      have ih1 := ih hr
      simp only [keys] at ih1
      simp [mapAssign, keys, h0, ih1]

theorem keys_mapAssign_of_not_mem (m : ViolationIndex) (k : String) (v : List String)
    (h : k ∉ keys m) : keys (mapAssign m k v) = keys m ++ [k] := by
  induction m with
  | nil => simp [mapAssign, keys]
  | cons e rest ih =>
    obtain ⟨k0, v0⟩ := e
    simp only [keys, List.map_cons, List.mem_cons, not_or] at h
    have ih1 := ih h.2
    simp only [keys] at ih1
    simp [mapAssign, keys, Ne.symm h.1, ih1]

/-! ## The reporter in closed form -/

theorem sortStrings_mapIndex_reportStep (m : ViolationIndex) (acc : List String)
    (rule r : String) :
    sortStrings (mapIndex (reportStep (m, acc) rule).1 r) = sortStrings (mapIndex m r) := by
  by_cases h : r = rule
  · subst h
    simp [reportStep, mapIndex_mapAssign_self, sortStrings_idem]
  · simp [reportStep, mapIndex_mapAssign_ne _ _ _ _ h]

theorem foldl_reportStep_messages (rules : List String) (m : ViolationIndex)
    (acc : List String) :
    (rules.foldl reportStep (m, acc)).2 =
      acc ++ rules.map (fun r => renderRule r (sortStrings (mapIndex m r))) := by
  induction rules generalizing m acc with
  | nil => simp
  | cons rule rest ih =>
    have hs : reportStep (m, acc) rule =
        ((reportStep (m, acc) rule).1, acc ++ [renderRule rule (sortStrings (mapIndex m rule))]) := rfl
    rw [List.foldl_cons, hs, ih]
    simp only [sortStrings_mapIndex_reportStep, List.map_cons, List.append_assoc,
      List.singleton_append]

theorem foldl_reportStep_index (rules : List String) (m : ViolationIndex)
    (acc : List String) (r : String) :
    mapIndex (rules.foldl reportStep (m, acc)).1 r =
      if r ∈ rules then sortStrings (mapIndex m r) else mapIndex m r := by
  induction rules generalizing m acc with
  | nil => simp
  | cons rule rest ih =>
    have hs : reportStep (m, acc) rule =
        (mapAssign m rule (sortStrings (mapIndex m rule)),
          acc ++ [renderRule rule (sortStrings (mapIndex m rule))]) := rfl
    rw [List.foldl_cons, hs, ih]
    by_cases h : r = rule
    · subst h
      simp [mapIndex_mapAssign_self, sortStrings_idem]
    · simp [mapIndex_mapAssign_ne _ _ _ _ h, h]

theorem foldl_reportStep_keys (rules : List String) (m : ViolationIndex)
    (acc : List String) (h : ∀ r ∈ rules, r ∈ keys m) :
    keys (rules.foldl reportStep (m, acc)).1 = keys m := by
  induction rules generalizing m acc with
  | nil => simp
  | cons rule rest ih =>
    have hs : reportStep (m, acc) rule =
        (mapAssign m rule (sortStrings (mapIndex m rule)),
          acc ++ [renderRule rule (sortStrings (mapIndex m rule))]) := rfl
    have hk : keys (mapAssign m rule (sortStrings (mapIndex m rule))) = keys m :=
      keys_mapAssign_of_mem m rule _ (h rule (List.mem_cons_self _ _))
    rw [List.foldl_cons, hs, ih, hk]
    intro r hr
    rw [hk]
    exact h r (List.mem_cons_of_mem _ hr)

theorem report_of_ne_nil (m : ViolationIndex) (h : m ≠ []) :
    report m = ⟨nagiosCRITICAL,
      criticalLead ++ " ".intercalate
        ((sortStrings (keys m)).map (fun r => renderRule r (sortStrings (mapIndex m r)))),
      ((sortStrings (keys m)).foldl reportStep (m, [])).1⟩ := by
  have hl : m.length > 0 := List.length_pos.2 h
  simp only [report, hl, if_true, foldl_reportStep_messages, List.nil_append]

theorem report_nil : report [] = ⟨nagiosOK, "OK - No resources found out of compliance", []⟩ := rfl

theorem mapIndex_of_not_mem (m : ViolationIndex) (r : String) (h : r ∉ keys m) :
    mapIndex m r = [] := by
  have h1 := (mapLookup_eq_none_iff m r).2 h
  simp [mapIndex, h1]

/-- After the reporter, every slice of the map is the sorted slice it had before. -/
theorem mapIndex_report (m : ViolationIndex) (r : String) :
    mapIndex (report m).nonCompliant r = sortStrings (mapIndex m r) := by
  by_cases h : m = []
  · subst h
    rfl
  · rw [report_of_ne_nil m h]
    simp only [foldl_reportStep_index]
    by_cases hr : r ∈ keys m
    · have : r ∈ sortStrings (keys m) := (sortStrings_perm (keys m)).mem_iff.2 hr
      simp [this]
    · have hn : r ∉ sortStrings (keys m) := fun hc => hr ((sortStrings_perm (keys m)).mem_iff.1 hc)
      simp [hn, mapIndex_of_not_mem m r hr, sortStrings_nil]

theorem keys_report (m : ViolationIndex) : keys (report m).nonCompliant = keys m := by
  by_cases h : m = []
  · subst h
    rfl
  · rw [report_of_ne_nil m h]
    exact foldl_reportStep_keys _ m [] (fun r hr => (sortStrings_perm (keys m)).mem_iff.1 hr)

/-! ## Claims about the reporter -/

/-- C1: for a non-empty violation index `V` (a map, so with one entry per rule name) the
reported status is CRITICAL (2), and the message is the fixed lead followed by the
space-joined renderings of a list of (rule, regions) segments in which every rule name of
`V` occurs exactly once and no other name occurs, the rule names are in strictly ascending
lexicographic order, and the regions of each segment are the regions `V` holds for its
rule, in ascending lexicographic order. -/
theorem report_nonempty_critical_sorted (V : ViolationIndex) (hV : V ≠ [])
    (hk : (keys V).Nodup) :
    (report V).code = nagiosCRITICAL ∧ nagiosCRITICAL = 2 ∧
    ∃ segments : List (String × List String),
      (report V).message =
        criticalLead ++ " ".intercalate (segments.map (fun s => renderRule s.1 s.2)) ∧
      (segments.map Prod.fst).Sorted (fun a b => a < b) ∧
      (∀ r, r ∈ keys V → (segments.map Prod.fst).count r = 1) ∧
      (∀ r, r ∈ segments.map Prod.fst → r ∈ keys V) ∧
      ∀ s ∈ segments, s.2.Sorted (fun a b => a ≤ b) ∧ s.2.Perm (mapIndex V s.1) := by
  rw [report_of_ne_nil V hV]
  refine ⟨rfl, rfl, (sortStrings (keys V)).map (fun r => (r, sortStrings (mapIndex V r))), ?_, ?_,
    ?_, ?_, ?_⟩
  · simp only [List.map_map]
    rfl
  · have hm : List.map Prod.fst
        ((sortStrings (keys V)).map (fun r => (r, sortStrings (mapIndex V r)))) =
        sortStrings (keys V) := by
      simp [List.map_map, Function.comp_def]
    rw [hm]
    exact sortStrings_sorted_lt _ hk
  · intro r hr
    have hm : List.map Prod.fst
        ((sortStrings (keys V)).map (fun r => (r, sortStrings (mapIndex V r)))) =
        sortStrings (keys V) := by
      simp [List.map_map, Function.comp_def]
    rw [hm, (sortStrings_perm (keys V)).count_eq]
    exact List.count_eq_one_of_mem hk hr
  · intro r hr
    have hm : List.map Prod.fst
        ((sortStrings (keys V)).map (fun r => (r, sortStrings (mapIndex V r)))) =
        sortStrings (keys V) := by
      simp [List.map_map, Function.comp_def]
    rw [hm] at hr
    exact (sortStrings_perm (keys V)).mem_iff.1 hr
  · intro s hs
    obtain ⟨r, _, rfl⟩ := List.mem_map.1 hs
    exact ⟨sortStrings_sorted_le _, sortStrings_perm _⟩

/-- Scenario D of the spec: rules r2 and r1 are listed as `r1=[...] r2=[...]`. -/
theorem report_nonempty_critical_sorted_witness :
    (report [("r2", ["eu-west-1"]), ("r1", ["us-west-2", "us-east-1"])]).message =
      "CRITICAL - Non-compliant resources detected in the following regions: r1=[us-east-1,us-west-2] r2=[eu-west-1]" ∧
    (report [("r2", ["eu-west-1"]), ("r1", ["us-west-2", "us-east-1"])]).code = nagiosCRITICAL :=
  ⟨by decide,
    (report_nonempty_critical_sorted [("r2", ["eu-west-1"]), ("r1", ["us-west-2", "us-east-1"])]
      (by decide) (by decide)).1⟩

/-- C8: for a non-empty violation index `V`, whatever list `rules` is the ascending
arrangement of the rule names of `V` and whatever list `regions r` is the ascending
arrangement of the regions of each rule `r`, the message is the fixed lead
`CRITICAL - Non-compliant resources detected in the following regions: ` followed by the
renderings `<rule>=[<regions>]` of the rules in that order, the regions joined by `,` and
the renderings joined by one space. -/
theorem report_message_exact (V : ViolationIndex) (hV : V ≠ [])
    (rules : List String) (hrp : rules.Perm (keys V))
    (hrs : rules.Sorted (fun a b => a ≤ b))
    (regions : String → List String)
    (hreg : ∀ r ∈ keys V, (regions r).Perm (mapIndex V r) ∧
      (regions r).Sorted (fun a b => a ≤ b)) :
    (report V).message =
      "CRITICAL - Non-compliant resources detected in the following regions: " ++
        " ".intercalate (rules.map (fun r => r ++ "=[" ++ ",".intercalate (regions r) ++ "]")) := by
  rw [report_of_ne_nil V hV]
  have hr : sortStrings (keys V) = rules := sortStrings_unique _ _ hrp hrs
  rw [hr]
  show criticalLead ++ _ = _
  congr 2
  apply List.map_congr_left
  intro r hrm
  have hrk : r ∈ keys V := hrp.mem_iff.1 hrm
  have h1 : sortStrings (mapIndex V r) = regions r :=
    sortStrings_unique _ _ (hreg r hrk).1 (hreg r hrk).2
  rw [h1]
  rfl

/-- Scenario C of the spec: `r1` with us-west-2 and us-east-1 renders as
`r1=[us-east-1,us-west-2]`. -/
theorem report_message_exact_witness :
    (report [("r1", ["us-west-2", "us-east-1"])]).message =
      "CRITICAL - Non-compliant resources detected in the following regions: r1=[us-east-1,us-west-2]" :=
  (report_message_exact [("r1", ["us-west-2", "us-east-1"])] (by decide) ["r1"]
    (List.Perm.refl _) (List.sorted_singleton _) (fun _ => ["us-east-1", "us-west-2"])
    (fun r hr => ⟨by
        have h1 : r = "r1" := by simpa [keys] using hr
        subst h1
        exact List.Perm.swap _ _ _,
      by
        have hle : ("us-east-1" : String) ≤ "us-west-2" :=
          (stringLE_iff_le _ _).1 (show ¬ stringLess "us-west-2" "us-east-1" by decide)
        exact List.Pairwise.cons
          (fun b hb => by
            have hb1 : b = "us-west-2" := by simpa using hb
            subst hb1
            exact hle)
          (List.pairwise_singleton _ _)⟩)).trans (by decide)

/-- C9: two violation indexes (maps) with the same rule names whose region lists are
permutations of each other are reported with the same status code and the same message;
so is the index a previous run of the reporter has left sorted in place. -/
theorem report_order_independent (V W : ViolationIndex)
    (hV : (keys V).Nodup) (hW : (keys W).Nodup)
    (hkeys : ∀ r, r ∈ keys V ↔ r ∈ keys W)
    (hreg : ∀ r, (mapIndex V r).Perm (mapIndex W r)) :
    (report V).code = (report W).code ∧ (report V).message = (report W).message ∧
    (report (report V).nonCompliant).code = (report V).code ∧
    (report (report V).nonCompliant).message = (report V).message := by
  have key : ∀ A B : ViolationIndex, (keys A).Nodup → (keys B).Nodup →
      (∀ r, r ∈ keys A ↔ r ∈ keys B) → (∀ r, (mapIndex A r).Perm (mapIndex B r)) →
      (report A).code = (report B).code ∧ (report A).message = (report B).message := by
    intro A B hA hB hk hr
    have hp : (keys A).Perm (keys B) := (List.perm_ext_iff_of_nodup hA hB).2 hk
    by_cases hA0 : A = []
    · have hB0 : B = [] := by
        subst hA0
        cases B with
        | nil => rfl
        | cons e rest =>
          have := (hk e.1).2 (by simp [keys])
          simp [keys] at this
      subst hA0
      subst hB0
      exact ⟨rfl, rfl⟩
    · have hB0 : B ≠ [] := by
        intro hB0
        subst hB0
        cases A with
        | nil => exact hA0 rfl
        | cons e rest =>
          have := (hk e.1).1 (by simp [keys])
          simp [keys] at this
      rw [report_of_ne_nil A hA0, report_of_ne_nil B hB0]
      refine ⟨rfl, ?_⟩
      show criticalLead ++ _ = criticalLead ++ _
      rw [sortStrings_congr _ _ hp]
      congr 2
      apply List.map_congr_left
      intro r _
      rw [sortStrings_congr _ _ (hr r)]
  have h1 := key V W hV hW hkeys hreg
  have h2 := key (report V).nonCompliant V (by rw [keys_report]; exact hV) hV
    (by intro r; rw [keys_report])
    (by intro r; rw [mapIndex_report]; exact sortStrings_perm _)
  exact ⟨h1.1, h1.2, h2.1, h2.2⟩

/-- The same rule with its regions inserted in two orders. -/
theorem report_order_independent_witness :
    (report [("r1", ["us-west-2", "us-east-1"])]).message =
      (report [("r1", ["us-east-1", "us-west-2"])]).message :=
  (report_order_independent [("r1", ["us-west-2", "us-east-1"])]
    [("r1", ["us-east-1", "us-west-2"])] (by decide) (by decide)
    (fun r => by simp [keys])
    (fun r => by
      by_cases h : "r1" = r
      · subst h
        exact List.Perm.swap _ _ _
      · simp [mapIndex, mapLookup, h])).2.1

/-! ## The loop body -/

theorem processResult_excluded (m : ViolationIndex) (e : AggregateComplianceByConfigRule)
    (h : excluded e = true) : processResult m e = some m := by
  unfold excluded at h
  unfold processResult
  cases hc : e.Compliance with
  | none => rfl
  | some c =>
    rw [hc] at h
    cases ht : c.ComplianceType with
    | none => simp [ht] at h
    | some t =>
      simp only [ht, decide_eq_true_eq] at h
      simp [ht, h]

/-- A compliance record without a compliance type makes line 61 dereference nil. -/
theorem processResult_type_absent (m : ViolationIndex) (e : AggregateComplianceByConfigRule)
    (c : Compliance) (hc : e.Compliance = some c) (ht : c.ComplianceType = none) :
    processResult m e = none := by
  simp [processResult, hc, ht]

theorem qualifies_iff (e : AggregateComplianceByConfigRule) :
    qualifies e = true ↔ ∃ c, e.Compliance = some c ∧ c.ComplianceType = some "NON_COMPLIANT" := by
  unfold qualifies
  constructor
  · intro h
    exact ⟨⟨some "NON_COMPLIANT"⟩, by simpa using h, rfl⟩
  · rintro ⟨c, hc, ht⟩
    obtain ⟨t⟩ := c
    simp only at ht
    subst ht
    simp [hc]

theorem excluded_not_qualifies (e : AggregateComplianceByConfigRule) (h : excluded e = true) :
    qualifies e = false := by
  cases hq : qualifies e with
  | false => rfl
  | true =>
    obtain ⟨c, hc, ht⟩ := (qualifies_iff e).1 hq
    simp [excluded, hc, ht] at h

/-- The loop body either skips an excluded entry or, on a qualifying one with its rule
name and region present, appends the region to the slice of the rule. -/
theorem processResult_cases (m m' : ViolationIndex) (e : AggregateComplianceByConfigRule)
    (h : processResult m e = some m') :
    (excluded e = true ∧ m' = m) ∨
    ∃ rule region, qualifies e = true ∧ e.ConfigRuleName = some rule ∧
      e.AwsRegion = some region ∧
      (∀ r, mapIndex m' r = if r = rule then mapIndex m rule ++ [region] else mapIndex m r) ∧
      keys m' = if rule ∈ keys m then keys m else keys m ++ [rule] := by
  unfold processResult at h
  cases hc : e.Compliance with
  | none =>
    left
    rw [hc] at h
    exact ⟨by simp [excluded, hc], by simpa using h.symm⟩
  | some c =>
    rw [hc] at h
    cases ht : c.ComplianceType with
    | none => simp [ht] at h
    | some t =>
      simp only [ht] at h
      by_cases hne : t = "NON_COMPLIANT"
      · right
        subst hne
        simp only [ne_eq, not_true_eq_false, if_false] at h
        cases hr : e.ConfigRuleName with
        | none => simp [hr] at h
        | some rule =>
          simp only [hr] at h
          cases hg : e.AwsRegion with
          | none => simp [hg] at h
          | some region =>
            simp only [hg, Option.some.injEq] at h
            refine ⟨rule, region, (qualifies_iff e).2 ⟨c, hc, ht⟩, rfl, rfl, ?_, ?_⟩
            · intro r
              subst h
              by_cases hmem : rule ∈ keys m
              · have hs : (mapLookup m rule).isSome = true := (mapLookup_isSome_iff m rule).2 hmem
                simp only [hs, if_true]
                by_cases hrr : r = rule
                · subst hrr
                  simp [mapIndex_mapAssign_self]
                · simp [hrr, mapIndex_mapAssign_ne _ _ _ _ hrr]
              · have hs : (mapLookup m rule).isSome = false := by
                  have := (mapLookup_eq_none_iff m rule).2 hmem
                  simp [this]
                simp only [hs, Bool.false_eq_true, if_false]
                by_cases hrr : r = rule
                · subst hrr
                  simp [mapIndex_mapAssign_self, mapIndex_of_not_mem m r hmem]
                · simp [hrr, mapIndex_mapAssign_ne _ _ _ _ hrr]
            · subst h
              by_cases hmem : rule ∈ keys m
              · have hs : (mapLookup m rule).isSome = true := (mapLookup_isSome_iff m rule).2 hmem
                simp only [hs, if_true, hmem]
                exact keys_mapAssign_of_mem _ _ _ hmem
              · have hs : (mapLookup m rule).isSome = false := by
                  have := (mapLookup_eq_none_iff m rule).2 hmem
                  simp [this]
                simp only [hs, Bool.false_eq_true, if_false, hmem]
                have h1 := keys_mapAssign_of_not_mem m rule [] hmem
                rw [keys_mapAssign_of_mem _ _ _ (by rw [h1]; simp), h1]
      · left
        simp only [ne_eq, hne, not_false_eq_true, if_true, Option.some.injEq] at h
        exact ⟨by simp [excluded, hc, ht, hne], h.symm⟩

theorem processResult_derefOK (m : ViolationIndex) (e : AggregateComplianceByConfigRule)
    (h : derefOK e = true) : ∃ m', processResult m e = some m' := by
  unfold derefOK at h
  rcases Bool.or_eq_true _ _ ▸ h with hx | hq
  · exact ⟨m, processResult_excluded m e hx⟩
  · simp only [Bool.and_eq_true] at hq
    obtain ⟨⟨hq1, hr⟩, hg⟩ := hq
    obtain ⟨c, hc, ht⟩ := (qualifies_iff e).1 hq1
    obtain ⟨rule, hr1⟩ := Option.isSome_iff_exists.1 hr
    obtain ⟨region, hg1⟩ := Option.isSome_iff_exists.1 hg
    simp [processResult, hc, ht, hr1, hg1]

/-! ## The inner loop -/

theorem processResults_append (m : ViolationIndex)
    (a b : List AggregateComplianceByConfigRule) :
    processResults m (a ++ b) = (processResults m a).bind (fun m1 => processResults m1 b) := by
  induction a generalizing m with
  | nil => simp [processResults]
  | cons e rest ih =>
    simp only [List.cons_append, processResults]
    cases processResult m e with
    | none => rfl
    | some m1 => exact ih m1

theorem processResults_filter_excluded (m : ViolationIndex)
    (es : List AggregateComplianceByConfigRule) :
    processResults m (es.filter (fun e => !excluded e)) = processResults m es := by
  induction es generalizing m with
  | nil => rfl
  | cons e rest ih =>
    cases hx : excluded e with
    | true =>
      simp only [List.filter_cons, hx, Bool.not_true, Bool.false_eq_true, if_false, processResults,
        processResult_excluded m e hx]
      exact ih m
    | false =>
      simp only [List.filter_cons, hx, Bool.not_false, if_true, processResults]
      cases processResult m e with
      | none => rfl
      | some m1 => exact ih m1

theorem processResults_derefOK (m : ViolationIndex)
    (es : List AggregateComplianceByConfigRule) (h : ∀ e ∈ es, derefOK e = true) :
    ∃ m', processResults m es = some m' := by
  induction es generalizing m with
  | nil => exact ⟨m, rfl⟩
  | cons e rest ih =>
    obtain ⟨m1, h1⟩ := processResult_derefOK m e (h e (List.mem_cons_self _ _))
    obtain ⟨m2, h2⟩ := ih m1 (fun e' he' => h e' (List.mem_cons_of_mem _ he'))
    exact ⟨m2, by simp [processResults, h1, h2]⟩

theorem regionsFor_cons (r : String) (e : AggregateComplianceByConfigRule)
    (es : List AggregateComplianceByConfigRule) :
    regionsFor r (e :: es) = regionsFor r [e] ++ regionsFor r es := by
  simp only [regionsFor, List.filterMap_cons, List.filterMap_nil]
  split <;> simp

theorem regionsFor_of_excluded (r : String) (e : AggregateComplianceByConfigRule)
    (h : excluded e = true) : regionsFor r [e] = [] := by
  simp [regionsFor, List.filterMap_cons, excluded_not_qualifies e h]

theorem regionsFor_of_qualifies (r rule region : String) (e : AggregateComplianceByConfigRule)
    (hq : qualifies e = true) (hr : e.ConfigRuleName = some rule)
    (hg : e.AwsRegion = some region) :
    regionsFor r [e] = if r = rule then [region] else [] := by
  by_cases h : r = rule
  · subst h
    simp [regionsFor, List.filterMap_cons, hq, hr, hg]
  · have h1 : ¬ rule = r := fun hc => h hc.symm
    simp [regionsFor, List.filterMap_cons, hq, hr, h, h1]

theorem mem_regionsFor (r g : String) (es : List AggregateComplianceByConfigRule) :
    g ∈ regionsFor r es ↔
      ∃ e ∈ es, qualifies e = true ∧ e.ConfigRuleName = some r ∧ e.AwsRegion = some g := by
  simp only [regionsFor, List.mem_filterMap]
  constructor
  · rintro ⟨e, he, h⟩
    by_cases hc : qualifies e = true ∧ e.ConfigRuleName = some r
    · rw [if_pos hc] at h
      exact ⟨e, he, hc.1, hc.2, h⟩
    · rw [if_neg hc] at h
      exact absurd h (by simp)
  · rintro ⟨e, he, hq, hr, hg⟩
    exact ⟨e, he, by rw [if_pos ⟨hq, hr⟩]; exact hg⟩

/-- After the inner loop, the slice of every rule is its old slice followed by the regions
of the qualifying entries of that rule, one per entry, in order of arrival. -/
theorem processResults_mapIndex (m m' : ViolationIndex)
    (es : List AggregateComplianceByConfigRule) (h : processResults m es = some m')
    (r : String) : mapIndex m' r = mapIndex m r ++ regionsFor r es := by
  induction es generalizing m with
  | nil =>
    simp only [processResults, Option.some.injEq] at h
    subst h
    simp [regionsFor]
  | cons e rest ih =>
    simp only [processResults] at h
    cases h1 : processResult m e with
    | none => simp [h1] at h
    | some m1 =>
      rw [h1] at h
      rw [ih m1 h, regionsFor_cons r e rest, ← List.append_assoc]
      congr 1
      rcases processResult_cases m m1 e h1 with ⟨hx, hm⟩ | ⟨rule, region, hq, hr, hg, hidx, _⟩
      · rw [hm, regionsFor_of_excluded r e hx, List.append_nil]
      · rw [hidx r, regionsFor_of_qualifies r rule region e hq hr hg]
        by_cases hrr : r = rule
        · subst hrr
          simp
        · simp [hrr]

theorem processResults_length (m m' : ViolationIndex)
    (es : List AggregateComplianceByConfigRule) (h : processResults m es = some m')
    (r : String) :
    (regionsFor r es).length =
      es.countP (fun e => qualifies e && decide (e.ConfigRuleName = some r)) := by
  induction es generalizing m with
  | nil => rfl
  | cons e rest ih =>
    simp only [processResults] at h
    cases h1 : processResult m e with
    | none => simp [h1] at h
    | some m1 =>
      rw [h1] at h
      rw [regionsFor_cons r e rest, List.length_append, ih m1 h, List.countP_cons, Nat.add_comm]
      congr 1
      rcases processResult_cases m m1 e h1 with ⟨hx, _⟩ | ⟨rule, region, hq, hr, hg, _, _⟩
      · simp [regionsFor_of_excluded r e hx, excluded_not_qualifies e hx]
      · rw [regionsFor_of_qualifies r rule region e hq hr hg]
        by_cases hrr : r = rule
        · subst hrr
          simp [hq, hr]
        · have h2 : ¬ rule = r := fun hc => hrr hc.symm
          simp [hrr, hq, hr, h2]

theorem regionsFor_count (es : List AggregateComplianceByConfigRule) (r g : String) :
    (regionsFor r es).count g =
      es.countP (fun e => qualifies e && decide (e.ConfigRuleName = some r) &&
        decide (e.AwsRegion = some g)) := by
  induction es with
  | nil => rfl
  | cons e rest ih =>
    rw [regionsFor_cons r e rest, List.count_append, ih, List.countP_cons, Nat.add_comm]
    congr 1
    by_cases hc : qualifies e = true ∧ e.ConfigRuleName = some r
    · cases hg : e.AwsRegion with
      | none => simp [regionsFor, List.filterMap_cons, hc, hg, hc.1, hc.2]
      | some g' =>
        by_cases hgg : g' = g
        · simp [regionsFor, List.filterMap_cons, hc, hg, hc.1, hc.2, hgg]
        · have hgg1 : ¬ g = g' := fun hc1 => hgg hc1.symm
          simp [regionsFor, List.filterMap_cons, hc, hg, hc.1, hc.2, hgg, List.count_singleton,
            hgg1]
    · have h0 : regionsFor r [e] = [] := by
        simp only [regionsFor, List.filterMap_cons, List.filterMap_nil, if_neg hc]
      rw [h0]
      have h1 : (qualifies e && decide (e.ConfigRuleName = some r)) = false := by
        cases hq : qualifies e with
        | false => rfl
        | true =>
          have : ¬ e.ConfigRuleName = some r := fun hr => hc ⟨hq, hr⟩
          simp [this]
      simp [h1]

theorem processResults_keys (m m' : ViolationIndex)
    (es : List AggregateComplianceByConfigRule) (h : processResults m es = some m')
    (r : String) :
    r ∈ keys m' ↔
      r ∈ keys m ∨ ∃ e ∈ es, qualifies e = true ∧ e.ConfigRuleName = some r := by
  induction es generalizing m with
  | nil =>
    simp only [processResults, Option.some.injEq] at h
    subst h
    simp
  | cons e rest ih =>
    simp only [processResults] at h
    cases h1 : processResult m e with
    | none => simp [h1] at h
    | some m1 =>
      rw [h1] at h
      rw [ih m1 h]
      rcases processResult_cases m m1 e h1 with ⟨hx, hm⟩ | ⟨rule, region, hq, hr, hg, _, hk⟩
      · subst hm
        have hnq := excluded_not_qualifies e hx
        simp [hnq]
      · rw [hk]
        by_cases hmem : rule ∈ keys m
        · simp only [hmem, if_true, List.mem_cons, exists_eq_or_imp, hq, hr, true_and,
            Option.some.injEq]
          constructor
          · rintro (h0 | h0)
            · exact Or.inl h0
            · exact Or.inr (Or.inr h0)
          · rintro (h0 | h0 | h0)
            · exact Or.inl h0
            · exact Or.inl (h0 ▸ hmem)
            · exact Or.inr h0
        · have hmem1 : r ∈ keys m ++ [rule] ↔ r ∈ keys m ∨ rule = r := by
            rw [List.mem_append, List.mem_singleton]
            exact or_congr Iff.rfl eq_comm
          simp only [hmem, if_false, hmem1, List.mem_cons,
            exists_eq_or_imp, hq, hr, true_and, Option.some.injEq]
          constructor
          · rintro ((h0 | h0) | h0)
            · exact Or.inl h0
            · exact Or.inr (Or.inl h0)
            · exact Or.inr (Or.inr h0)
          · rintro (h0 | h0 | h0)
            · exact Or.inl (Or.inl h0)
            · exact Or.inl (Or.inr h0)
            · exact Or.inr h0

theorem processResults_qualifies (m m' : ViolationIndex)
    (es : List AggregateComplianceByConfigRule) (h : processResults m es = some m')
    (e : AggregateComplianceByConfigRule) (he : e ∈ es) (hq : qualifies e = true) :
    ∃ rule, e.ConfigRuleName = some rule := by
  induction es generalizing m with
  | nil => simp at he
  | cons e0 rest ih =>
    simp only [processResults] at h
    cases h1 : processResult m e0 with
    | none => simp [h1] at h
    | some m1 =>
      rw [h1] at h
      rcases List.mem_cons.1 he with he0 | her
      · subst he0
        rcases processResult_cases m m1 e h1 with ⟨hx, _⟩ | ⟨rule, _, _, hr, _, _, _⟩
        · rw [excluded_not_qualifies e hx] at hq
          exact absurd hq (by simp)
        · exact ⟨rule, hr⟩
      · exact ih m1 h her

theorem processResults_nodup (m m' : ViolationIndex)
    (es : List AggregateComplianceByConfigRule) (h : processResults m es = some m')
    (hn : (keys m).Nodup) : (keys m').Nodup := by
  induction es generalizing m with
  | nil =>
    simp only [processResults, Option.some.injEq] at h
    subst h
    exact hn
  | cons e rest ih =>
    simp only [processResults] at h
    cases h1 : processResult m e with
    | none => simp [h1] at h
    | some m1 =>
      rw [h1] at h
      apply ih m1 h
      rcases processResult_cases m m1 e h1 with ⟨_, hm⟩ | ⟨rule, region, _, _, _, _, hk⟩
      · rw [hm]; exact hn
      · rw [hk]
        by_cases hmem : rule ∈ keys m
        · simpa [hmem] using hn
        · simp only [hmem, if_false]
          exact List.Nodup.append hn (List.nodup_singleton _) (by simpa using hmem)

/-! ## The fetch loop -/

theorem fetchLoop_nil (next : Option String) (m : ViolationIndex) :
    fetchLoop [] next m = ⟨[next], .pending⟩ := rfl

theorem fetchLoop_failed (err : String) (rest : List Response) (next : Option String)
    (m : ViolationIndex) :
    fetchLoop (.failed err :: rest) next m =
      ⟨[next], .fatal (errorsWrap err "retrieving aggregate compliance")⟩ := rfl

theorem fetchLoop_panic (out : DescribeAggregateComplianceByConfigRulesOutput) (rest : List Response) (next : Option String)
    (m : ViolationIndex)
    (h : processResults m out.AggregateComplianceByConfigRules = none) :
    fetchLoop (.ok out :: rest) next m = ⟨[next], .panicked⟩ := by
  simp [fetchLoop, h]

theorem fetchLoop_last (out : DescribeAggregateComplianceByConfigRulesOutput) (rest : List Response) (next : Option String)
    (m m1 : ViolationIndex)
    (h : processResults m out.AggregateComplianceByConfigRules = some m1)
    (ht : out.NextToken = none) :
    fetchLoop (.ok out :: rest) next m = ⟨[next], .completed m1⟩ := by
  simp [fetchLoop, h, ht]

theorem fetchLoop_more (out : DescribeAggregateComplianceByConfigRulesOutput) (rest : List Response) (next : Option String)
    (m m1 : ViolationIndex) (token : String)
    (h : processResults m out.AggregateComplianceByConfigRules = some m1)
    (ht : out.NextToken = some token) :
    fetchLoop (.ok out :: rest) next m =
      ⟨next :: (fetchLoop rest (some token) m1).requests,
        (fetchLoop rest (some token) m1).result⟩ := by
  simp [fetchLoop, h, ht]

/-- Every run issues its first request with the token the loop was entered with. -/
theorem fetchLoop_requests_head (script : List Response) (next : Option String)
    (m : ViolationIndex) :
    ∃ tail, (fetchLoop script next m).requests = next :: tail := by
  cases script with
  | nil => exact ⟨[], rfl⟩
  | cons r rest =>
    cases r with
    | failed err => exact ⟨[], rfl⟩
    | ok out =>
      cases h : processResults m out.AggregateComplianceByConfigRules with
      | none => exact ⟨[], by rw [fetchLoop_panic out rest next m h]⟩
      | some m1 =>
        cases ht : out.NextToken with
        | none => exact ⟨[], by rw [fetchLoop_last out rest next m m1 h ht]⟩
        | some token => exact ⟨_, by rw [fetchLoop_more out rest next m m1 token h ht]⟩

/-- A completed run has folded the inner loop over the entries of the responses it
consumed, all of them successful. -/
theorem fetchLoop_completed (script : List Response) (next : Option String)
    (m V : ViolationIndex) (h : (fetchLoop script next m).result = .completed V) :
    processResults m (entriesOf (script.take (fetchLoop script next m).requests.length)) =
      some V := by
  induction script generalizing next m with
  | nil => simp [fetchLoop_nil] at h
  | cons r rest ih =>
    cases r with
    | failed err => simp [fetchLoop_failed] at h
    | ok out =>
      cases hp : processResults m out.AggregateComplianceByConfigRules with
      | none => simp [fetchLoop_panic out rest next m hp] at h
      | some m1 =>
        cases ht : out.NextToken with
        | none =>
          rw [fetchLoop_last out rest next m m1 hp ht] at h ⊢
          simp only [FetchResult.completed.injEq] at h
          subst h
          simp [entriesOf, hp]
        | some token =>
          rw [fetchLoop_more out rest next m m1 token hp ht] at h ⊢
          have h1 := ih (some token) m1 h
          simp only [List.length_cons, List.take_succ_cons, entriesOf]
          rw [processResults_append, hp]
          exact h1

/-- Along a chain of successful pages, each but the last with a token, whose entries are
all handled without a nil dereference, the loop issues one request per page, each
carrying the token of the page before, and completes with the fold of the inner loop over
all the entries. -/
theorem fetchLoop_chain (init : List DescribeAggregateComplianceByConfigRulesOutput) (last : DescribeAggregateComplianceByConfigRulesOutput)
    (rest : List Response) (next : Option String) (m : ViolationIndex)
    (htok : ∀ p ∈ init, p.NextToken ≠ none) (hlast : last.NextToken = none)
    (hd : ∀ p ∈ init ++ [last], ∀ e ∈ p.AggregateComplianceByConfigRules, derefOK e = true) :
    ∃ V, fetchLoop ((init ++ [last]).map Response.ok ++ rest) next m =
        ⟨next :: init.map (fun p => p.NextToken), .completed V⟩ ∧
      processResults m (entriesOf ((init ++ [last]).map Response.ok)) = some V := by
  induction init generalizing next m with
  | nil =>
    obtain ⟨V, hV⟩ := processResults_derefOK m last.AggregateComplianceByConfigRules
      (hd last (by simp))
    refine ⟨V, ?_, ?_⟩
    · simp only [List.nil_append, List.map_cons, List.map_nil, List.cons_append]
      exact fetchLoop_last last _ next m V hV hlast
    · simp [entriesOf, hV]
  | cons p ps ih =>
    obtain ⟨m1, hm1⟩ := processResults_derefOK m p.AggregateComplianceByConfigRules
      (hd p (by simp))
    have htp : p.NextToken ≠ none := htok p (List.mem_cons_self _ _)
    obtain ⟨token, htoken⟩ : ∃ token, p.NextToken = some token := by
      cases hnt : p.NextToken with
      | none => exact absurd hnt htp
      | some t => exact ⟨t, rfl⟩
    obtain ⟨V, hV1, hV2⟩ := ih (some token) m1
      (fun q hq => htok q (List.mem_cons_of_mem _ hq))
      (fun q hq => hd q (by
        rw [List.cons_append]
        exact List.mem_cons_of_mem _ hq))
    refine ⟨V, ?_, ?_⟩
    · simp only [List.cons_append, List.map_cons]
      rw [fetchLoop_more p _ next m m1 token hm1 htoken, hV1, htoken]
    · simp only [List.cons_append, List.map_cons, entriesOf]
      rw [processResults_append, hm1]
      exact hV2

theorem mem_entriesOf_map_ok (pages : List DescribeAggregateComplianceByConfigRulesOutput)
    (e : AggregateComplianceByConfigRule) :
    e ∈ entriesOf (pages.map Response.ok) ↔
      ∃ p ∈ pages, e ∈ p.AggregateComplianceByConfigRules := by
  induction pages with
  | nil => simp [entriesOf]
  | cons p ps ih => simp [entriesOf, ih]

/-- Pagination completeness on pages whose entries carry every field the loop body
dereferences: for `N = init.length + 1` successful pages, each but the last with a
continuation token and the last with none, the fetcher issues exactly `N` requests and
completes with a map of distinct rule names that holds a region for a rule exactly when
some page has a qualifying entry with that rule name and region. -/
theorem fetch_pagination_complete (init : List DescribeAggregateComplianceByConfigRulesOutput) (last : DescribeAggregateComplianceByConfigRulesOutput)
    (htok : ∀ p ∈ init, p.NextToken ≠ none) (hlast : last.NextToken = none)
    (hd : ∀ p ∈ init ++ [last], ∀ e ∈ p.AggregateComplianceByConfigRules, derefOK e = true) :
    ∃ V, (fetch ((init ++ [last]).map Response.ok)).result = .completed V ∧
      (fetch ((init ++ [last]).map Response.ok)).requests.length = init.length + 1 ∧
      (keys V).Nodup ∧
      ∀ rule region, region ∈ mapIndex V rule ↔
        ∃ p ∈ init ++ [last], ∃ e ∈ p.AggregateComplianceByConfigRules,
          qualifies e = true ∧ e.ConfigRuleName = some rule ∧ e.AwsRegion = some region := by
  obtain ⟨V, hV1, hV2⟩ := fetchLoop_chain init last [] none [] htok hlast hd
  rw [List.append_nil] at hV1
  refine ⟨V, ?_, ?_, ?_, ?_⟩
  · unfold fetch
    rw [hV1]
  · unfold fetch
    rw [hV1]
    simp
  · exact processResults_nodup [] V _ hV2 (by simp [keys])
  · intro rule region
    rw [processResults_mapIndex [] V _ hV2 rule]
    have h0 : mapIndex [] rule = [] := rfl
    rw [h0, List.nil_append, mem_regionsFor]
    constructor
    · rintro ⟨e, he, h⟩
      obtain ⟨p, hp, hep⟩ := (mem_entriesOf_map_ok _ e).1 he
      exact ⟨p, hp, e, hep, h⟩
    · rintro ⟨p, hp, e, hep, h⟩
      exact ⟨e, (mem_entriesOf_map_ok _ e).2 ⟨p, hp, hep⟩, h⟩

/-- A completed fetch leaves a map: no rule name has two entries. -/
theorem fetch_keys_nodup (script : List Response) (V : ViolationIndex)
    (h : (fetch script).result = .completed V) : (keys V).Nodup :=
  processResults_nodup [] V _ (fetchLoop_completed script none [] V h) (by simp [keys])

theorem fetchLoop_dropExcluded (script : List Response) (next : Option String)
    (m : ViolationIndex) :
    fetchLoop (script.map dropExcluded) next m = fetchLoop script next m := by
  induction script generalizing next m with
  | nil => rfl
  | cons r rest ih =>
    cases r with
    | failed err => rfl
    | ok out =>
      simp only [List.map_cons, dropExcluded, fetchLoop, processResults_filter_excluded]
      cases processResults m out.AggregateComplianceByConfigRules with
      | none => rfl
      | some m1 =>
        cases out.NextToken with
        | none => rfl
        | some token => simp only [ih]

theorem fetchLoop_failed_at (script : List Response) (next : Option String)
    (m : ViolationIndex) (i : Nat) (err : String)
    (hfail : script[i]? = some (.failed err))
    (hissued : i < (fetchLoop script next m).requests.length) :
    (fetchLoop script next m).result =
        .fatal (errorsWrap err "retrieving aggregate compliance") ∧
      (fetchLoop script next m).requests.length = i + 1 := by
  induction script generalizing next m i with
  | nil => simp at hfail
  | cons r rest ih =>
    cases i with
    | zero =>
      simp only [List.getElem?_cons_zero, Option.some.injEq] at hfail
      subst hfail
      exact ⟨rfl, rfl⟩
    | succ j =>
      simp only [List.getElem?_cons_succ] at hfail
      cases r with
      | failed err0 => simp [fetchLoop_failed] at hissued
      | ok out =>
        cases hp : processResults m out.AggregateComplianceByConfigRules with
        | none => simp [fetchLoop_panic out rest next m hp] at hissued
        | some m1 =>
          cases ht : out.NextToken with
          | none => simp [fetchLoop_last out rest next m m1 hp ht] at hissued
          | some token =>
            rw [fetchLoop_more out rest next m m1 token hp ht] at hissued ⊢
            simp only [List.length_cons, Nat.add_lt_add_iff_right] at hissued
            obtain ⟨h1, h2⟩ := ih (some token) m1 j hfail hissued
            exact ⟨h1, by simp [h2]⟩

theorem fetchLoop_stops (script : List Response) (next : Option String)
    (m : ViolationIndex) (i : Nat) (out : DescribeAggregateComplianceByConfigRulesOutput)
    (hi : script[i]? = some (.ok out)) (hnone : out.NextToken = none) :
    (fetchLoop script next m).requests.length ≤ i + 1 := by
  induction script generalizing next m i with
  | nil => simp at hi
  | cons r rest ih =>
    cases r with
    | failed err => simp [fetchLoop_failed]
    | ok out0 =>
      cases hp : processResults m out0.AggregateComplianceByConfigRules with
      | none => simp [fetchLoop_panic out0 rest next m hp]
      | some m1 =>
        cases ht : out0.NextToken with
        | none => simp [fetchLoop_last out0 rest next m m1 hp ht]
        | some token =>
          rw [fetchLoop_more out0 rest next m m1 token hp ht]
          cases i with
          | zero =>
            simp only [List.getElem?_cons_zero, Option.some.injEq, Response.ok.injEq] at hi
            subst hi
            rw [ht] at hnone
            exact absurd hnone (by simp)
          | succ j =>
            simp only [List.getElem?_cons_succ] at hi
            have := ih (some token) m1 j hi
            simp only [List.length_cons]
            omega

theorem fetchLoop_token_sent (script : List Response) (next : Option String)
    (m : ViolationIndex) (i : Nat) (out : DescribeAggregateComplianceByConfigRulesOutput) (token : String)
    (hi : script[i]? = some (.ok out)) (hsome : out.NextToken = some token)
    (hissued : i < (fetchLoop script next m).requests.length)
    (hnp : (fetchLoop script next m).result ≠ .panicked) :
    (fetchLoop script next m).requests[i + 1]? = some (some token) := by
  induction script generalizing next m i with
  | nil => simp at hi
  | cons r rest ih =>
    cases r with
    | failed err =>
      cases i with
      | zero => simp at hi
      | succ j => simp [fetchLoop_failed] at hissued
    | ok out0 =>
      cases hp : processResults m out0.AggregateComplianceByConfigRules with
      | none => simp [fetchLoop_panic out0 rest next m hp] at hnp
      | some m1 =>
        cases ht : out0.NextToken with
        | none =>
          cases i with
          | zero =>
            simp only [List.getElem?_cons_zero, Option.some.injEq, Response.ok.injEq] at hi
            subst hi
            rw [ht] at hsome
            exact absurd hsome (by simp)
          | succ j => simp [fetchLoop_last out0 rest next m m1 hp ht] at hissued
        | some token0 =>
          rw [fetchLoop_more out0 rest next m m1 token0 hp ht] at hissued hnp ⊢
          cases i with
          | zero =>
            simp only [List.getElem?_cons_zero, Option.some.injEq, Response.ok.injEq] at hi
            subst hi
            rw [ht] at hsome
            simp only [Option.some.injEq] at hsome
            subst hsome
            obtain ⟨tail, htail⟩ := fetchLoop_requests_head rest (some token0) m1
            simp [htail]
          | succ j =>
            simp only [List.getElem?_cons_succ] at hi
            simp only [List.length_cons, Nat.add_lt_add_iff_right] at hissued
            have := ih (some token0) m1 j hi hissued hnp
            simpa using this

/-! ## Claims about the fetcher -/

/-- C2: in every run whose fetch completes with an empty violation index, the process
exits through `p.Exit` with the status OK, which is 0, and the message
`OK - No resources found out of compliance`; and in such a run no entry of the pages
consumed qualifies. -/
theorem main_empty_index_ok (script : List Response)
    (h : (fetch script).result = FetchResult.completed []) :
    main script = Outcome.exit nagiosOK "OK - No resources found out of compliance" ∧
    nagiosOK = 0 ∧
    ∀ e ∈ entriesOf (script.take (fetch script).requests.length), qualifies e = false := by
  refine ⟨?_, rfl, ?_⟩
  · unfold main
    rw [h]
    rfl
  · intro e he
    have hp := fetchLoop_completed script none [] [] h
    cases hq : qualifies e with
    | false => rfl
    | true =>
      obtain ⟨rule, hr⟩ := processResults_qualifies [] [] _ hp e he hq
      have hk := (processResults_keys [] [] _ hp rule).2 (Or.inr ⟨e, he, hq, hr⟩)
      simp [keys] at hk

/-- Scenario A of the spec: the aggregator has zero results. -/
theorem main_empty_index_ok_witness :
    (fetch [Response.ok ⟨[], none⟩]).result = FetchResult.completed [] ∧
    main [Response.ok ⟨[], none⟩] =
      Outcome.exit 0 "OK - No resources found out of compliance" :=
  ⟨by decide, (main_empty_index_ok [Response.ok ⟨[], none⟩] (by decide)).1⟩

/-- C3: evaluation of the fetcher on two successful pages, the first with a continuation
token and an entry whose compliance record has no compliance type, the second with no
token and a qualifying entry (r1, us-east-1).  Line 61 dereferences the nil compliance
type: the run panics after the first request, the second page is never requested and no
violation index results. -/
theorem fetch_type_absent_first_page :
    fetch [Response.ok ⟨[⟨some "us-east-1", some ⟨none⟩, some "r0"⟩], some "t1"⟩,
      Response.ok ⟨[⟨some "us-east-1", some ⟨some "NON_COMPLIANT"⟩, some "r1"⟩], none⟩] =
      ⟨[none], FetchResult.panicked⟩ ∧
    main [Response.ok ⟨[⟨some "us-east-1", some ⟨none⟩, some "r0"⟩], some "t1"⟩,
      Response.ok ⟨[⟨some "us-east-1", some ⟨some "NON_COMPLIANT"⟩, some "r1"⟩], none⟩] =
      Outcome.panic := by
  decide

/-- C4: an entry whose compliance record is absent, or whose compliance type is a string
other than `NON_COMPLIANT`, contributes nothing: the run of the fetcher on a script (its
requests, and the index it completes with or the way it fails) and the outcome of the
process are those on the same script with all such entries removed. -/
theorem excluded_entries_contribute_nothing (script : List Response) :
    fetch (script.map dropExcluded) = fetch script ∧
    main (script.map dropExcluded) = main script ∧
    ∀ e : AggregateComplianceByConfigRule, excluded e = true ↔
      (e.Compliance = none ∨
        ∃ t, e.Compliance = some ⟨some t⟩ ∧ t ≠ "NON_COMPLIANT") := by
  have h1 : fetch (script.map dropExcluded) = fetch script :=
    fetchLoop_dropExcluded script none []
  refine ⟨h1, ?_, ?_⟩
  · unfold main
    rw [h1]
  · intro e
    unfold excluded
    cases hc : e.Compliance with
    | none => simp
    | some c =>
      obtain ⟨t⟩ := c
      cases t with
      | none => simp
      | some t => simp

/-- C5: when the k-th request (k at least 1) is issued and fails with `err`, the process
ends in `p.Fatal` with the error `retrieving aggregate compliance: err`, exactly k requests
have been issued, and no status is handed to `p.Exit`: the violations collected from the
pages before are not reported. -/
theorem request_failure_is_fatal (script : List Response) (k : Nat) (err : String)
    (hk : 1 ≤ k) (hfail : script[k - 1]? = some (Response.failed err))
    (hissued : k ≤ (fetch script).requests.length) :
    main script = Outcome.fatal ("retrieving aggregate compliance: " ++ err) ∧
    (fetch script).requests.length = k ∧
    ∀ code message, main script ≠ Outcome.exit code message := by
  have hlt : k - 1 < (fetchLoop script none []).requests.length := by
    unfold fetch at hissued
    omega
  obtain ⟨h1, h2⟩ := fetchLoop_failed_at script none [] (k - 1) err hfail hlt
  have hm : main script = Outcome.fatal ("retrieving aggregate compliance: " ++ err) := by
    unfold main fetch
    rw [h1]
    rfl
  refine ⟨hm, ?_, ?_⟩
  · unfold fetch
    omega
  · intro code message
    rw [hm]
    simp

/-- Scenario E of the spec: the call fails on the second page, after a first page with a
violation. -/
theorem request_failure_is_fatal_witness :
    main [Response.ok ⟨[⟨some "us-east-1", some ⟨some "NON_COMPLIANT"⟩, some "r1"⟩], some "t1"⟩,
      Response.failed "timeout"] =
      Outcome.fatal "retrieving aggregate compliance: timeout" ∧
    (fetch [Response.ok ⟨[⟨some "us-east-1", some ⟨some "NON_COMPLIANT"⟩, some "r1"⟩], some "t1"⟩,
      Response.failed "timeout"]).requests = [none, some "t1"] :=
  ⟨((request_failure_is_fatal
      [Response.ok ⟨[⟨some "us-east-1", some ⟨some "NON_COMPLIANT"⟩, some "r1"⟩], some "t1"⟩,
        Response.failed "timeout"] 2 "timeout" (by decide) (by decide) (by decide)).1).trans
      (by decide),
    by decide⟩

/-- C6, as stated, fails: after a response whose continuation token is the empty string
the fetcher issues a second request, carrying the empty token. -/
theorem empty_token_does_not_stop :
    (fetch [Response.ok ⟨[], some ""⟩, Response.ok ⟨[], none⟩]).requests = [none, some ""] ∧
    ¬ (∀ (script : List Response) (i : Nat) (out : DescribeAggregateComplianceByConfigRulesOutput),
        script[i]? = some (Response.ok out) →
        (out.NextToken = none ∨ out.NextToken = some "") →
        (fetch script).requests.length ≤ i + 1) := by
  refine ⟨by decide, ?_⟩
  intro h
  have h1 := h [Response.ok ⟨[], some ""⟩, Response.ok ⟨[], none⟩] 0 ⟨[], some ""⟩ rfl
    (Or.inr rfl)
  revert h1
  decide

/-- C6, amended: no request is issued after a response whose continuation token is absent
(nil); a response that carries a token, the empty string included, does not end the
pagination: unless the run panics, the request issued after it carries that token. -/
theorem fetch_stops_at_absent_token (script : List Response) (i : Nat) (out : DescribeAggregateComplianceByConfigRulesOutput)
    (hi : script[i]? = some (Response.ok out)) :
    (out.NextToken = none → (fetch script).requests.length ≤ i + 1) ∧
    (∀ token, out.NextToken = some token → i < (fetch script).requests.length →
      (fetch script).result ≠ FetchResult.panicked →
      (fetch script).requests[i + 1]? = some (some token)) :=
  ⟨fun hnone => fetchLoop_stops script none [] i out hi hnone,
    fun token hsome hissued hnp =>
      fetchLoop_token_sent script none [] i out token hi hsome hissued hnp⟩

/-- Two pages, the first with the empty token: the run stops after the second, which has
none, and the second request carries the empty token. -/
theorem fetch_stops_at_absent_token_witness :
    (fetch [Response.ok ⟨[], some ""⟩, Response.ok ⟨[], none⟩]).requests.length ≤ 2 ∧
    (fetch [Response.ok ⟨[], some ""⟩, Response.ok ⟨[], none⟩]).requests[1]? =
      some (some "") :=
  ⟨(fetch_stops_at_absent_token [Response.ok ⟨[], some ""⟩, Response.ok ⟨[], none⟩] 1
      ⟨[], none⟩ (by decide)).1 rfl,
    (fetch_stops_at_absent_token [Response.ok ⟨[], some ""⟩, Response.ok ⟨[], none⟩] 0
      ⟨[], some ""⟩ (by decide)).2 "" rfl (by decide) (by decide)⟩

/-- C7: evaluation of the loop body and of the process on an entry whose compliance record
is present without a compliance type.  Line 61 dereferences the nil pointer: the entry is
not skipped, the run panics and the qualifying entry after it is never reported, whereas
the same page with the whole compliance record absent is reported as CRITICAL for the
second entry. -/
theorem type_absent_entry_panics :
    processResult [] ⟨some "us-east-1", some ⟨none⟩, some "r1"⟩ = none ∧
    main [Response.ok ⟨[⟨some "us-east-1", some ⟨none⟩, some "r1"⟩,
      ⟨some "us-west-2", some ⟨some "NON_COMPLIANT"⟩, some "r2"⟩], none⟩] = Outcome.panic ∧
    main [Response.ok ⟨[⟨some "us-east-1", none, some "r1"⟩,
      ⟨some "us-west-2", some ⟨some "NON_COMPLIANT"⟩, some "r2"⟩], none⟩] =
      Outcome.exit 2
        "CRITICAL - Non-compliant resources detected in the following regions: r2=[us-west-2]" := by
  decide

/-- C10: when the fetch completes with the index `V`, the slice stored for a rule is the
list of the regions of the qualifying entries of that rule on the pages consumed, one
element per entry and in order of arrival; so a region reported k times for the rule
occurs k times in the stored slice and k times in the sorted slice the reporter renders;
and a rule present in the index has a non-empty slice. -/
theorem regions_accumulate_without_dedup (script : List Response) (V : ViolationIndex)
    (h : (fetch script).result = FetchResult.completed V) (rule : String) :
    mapIndex V rule =
      regionsFor rule (entriesOf (script.take (fetch script).requests.length)) ∧
    (mapIndex V rule).length =
      (entriesOf (script.take (fetch script).requests.length)).countP
        (fun e => qualifies e && decide (e.ConfigRuleName = some rule)) ∧
    (∀ region, (mapIndex V rule).count region =
      (entriesOf (script.take (fetch script).requests.length)).countP
        (fun e => qualifies e && decide (e.ConfigRuleName = some rule) &&
          decide (e.AwsRegion = some region))) ∧
    (∀ region, (sortStrings (mapIndex V rule)).count region =
      (entriesOf (script.take (fetch script).requests.length)).countP
        (fun e => qualifies e && decide (e.ConfigRuleName = some rule) &&
          decide (e.AwsRegion = some region))) ∧
    (rule ∈ keys V → mapIndex V rule ≠ []) := by
  have hp := fetchLoop_completed script none [] V h
  have hidx := processResults_mapIndex [] V _ hp rule
  have h0 : mapIndex [] rule = [] := rfl
  rw [h0, List.nil_append] at hidx
  have hidx1 : mapIndex V rule =
      regionsFor rule (entriesOf (script.take (fetch script).requests.length)) := hidx
  refine ⟨hidx1, ?_, ?_, ?_, ?_⟩
  · rw [hidx1]
    exact processResults_length [] V _ hp rule
  · intro region
    rw [hidx1]
    exact regionsFor_count _ rule region
  · intro region
    rw [(sortStrings_perm _).count_eq, hidx1]
    exact regionsFor_count _ rule region
  · intro hmem
    have hk := (processResults_keys [] V _ hp rule).1 hmem
    rcases hk with hk | ⟨e, he, hq, hr⟩
    · simp [keys] at hk
    · have hlen := processResults_length [] V _ hp rule
      have hpos : 0 < (entriesOf (script.take (fetchLoop script none []).requests.length)).countP
          (fun e => qualifies e && decide (e.ConfigRuleName = some rule)) :=
        List.countP_pos_iff.2 ⟨e, he, by simp [hq, hr]⟩
      intro hnil
      rw [hidx] at hnil
      rw [hnil] at hlen
      simp only [List.length_nil] at hlen
      omega

/-- The pair (r1, us-east-1) reported on two pages is rendered twice. -/
theorem regions_accumulate_without_dedup_witness :
    main [Response.ok ⟨[⟨some "us-east-1", some ⟨some "NON_COMPLIANT"⟩, some "r1"⟩], some "t1"⟩,
      Response.ok ⟨[⟨some "us-east-1", some ⟨some "NON_COMPLIANT"⟩, some "r1"⟩], none⟩] =
      Outcome.exit 2
        "CRITICAL - Non-compliant resources detected in the following regions: r1=[us-east-1,us-east-1]" ∧
    mapIndex [("r1", ["us-east-1", "us-east-1"])] "r1" =
      regionsFor "r1" (entriesOf (List.take
        (fetch [Response.ok ⟨[⟨some "us-east-1", some ⟨some "NON_COMPLIANT"⟩, some "r1"⟩], some "t1"⟩,
          Response.ok ⟨[⟨some "us-east-1", some ⟨some "NON_COMPLIANT"⟩, some "r1"⟩], none⟩]).requests.length
        [Response.ok ⟨[⟨some "us-east-1", some ⟨some "NON_COMPLIANT"⟩, some "r1"⟩], some "t1"⟩,
          Response.ok ⟨[⟨some "us-east-1", some ⟨some "NON_COMPLIANT"⟩, some "r1"⟩], none⟩])) :=
  ⟨by decide,
    (regions_accumulate_without_dedup
      [Response.ok ⟨[⟨some "us-east-1", some ⟨some "NON_COMPLIANT"⟩, some "r1"⟩], some "t1"⟩,
        Response.ok ⟨[⟨some "us-east-1", some ⟨some "NON_COMPLIANT"⟩, some "r1"⟩], none⟩]
      [("r1", ["us-east-1", "us-east-1"])] (by decide) "r1").1⟩

end CheckAwsConfigAggregator
